import Mathlib

/-!
Verification of the feature-augmented matrix-factorization recommendation
engine (BeaconAI) of this repository.

The definitions below are a shallow embedding of the engine code in
backend/beacon_torch_optimized.py, backend/beacon_torch_persistent.py and
backend/beacon_torch_cloud.py (backend/beacon_torch.py holds the legacy
un-vectorized path of the same engine).  Modelling conventions:

* machine floating point numbers are modelled as rationals (ℚ);
* the torch sigmoid is abstracted as a function parameter `σ : ℚ → ℚ`
  applied exactly where the code applies `torch.sigmoid`; every theorem
  below that involves it holds for an arbitrary `σ` (hence in particular
  for the real sigmoid);
* Python exceptions are modelled with `Except String`;
* Python dicts built by comprehension are modelled by `pyDictLookup`
  (later bindings of the same key overwrite earlier ones) together with
  `pyKeys` (keys in first-insertion order, one per distinct key);
* `hashlib.md5` is an external library call; the data fingerprint is
  modelled as the canonical value the code feeds to the hash (the tuple of
  the five sorted lists), i.e. the hash itself is treated as an injective
  stand-in, which preserves both directions of the fingerprint claims;
* `numpy.argsort(-scores)` leaves the relative order of exact ties
  unspecified; it is modelled as the deterministic descending sort with
  ties broken by ascending index.  None of the claims proved below is
  sensitive to the tie order.
-/

set_option maxRecDepth 4000

namespace Beacon

/-- Equality of modelled computation results (with their exception values)
is decidable. -/
instance {ε α : Type*} [DecidableEq ε] [DecidableEq α] : DecidableEq (Except ε α) := fun
  | Except.error a, Except.error b => decidable_of_iff (a = b) (by simp)
  | Except.error _, Except.ok _ => isFalse (fun h => Except.noConfusion h)
  | Except.ok _, Except.error _ => isFalse (fun h => Except.noConfusion h)
  | Except.ok a, Except.ok b => decidable_of_iff (a = b) (by simp)

/-- Lookup in a Python dict built from a list of key/value pairs by
successive insertion: a later binding of a key overwrites an earlier one,
so lookup returns the value of the last pair carrying the key.  This is
the dict-comprehension semantics used throughout `fit_data`. -/
def pyDictLookup {κ ν : Type*} [DecidableEq κ] (pairs : List (κ × ν)) (k : κ) : Option ν :=
  (pairs.reverse.find? (fun p => decide (p.1 = k))).map (fun p => p.2)

/-- Keep the first occurrence of every element, dropping later duplicates.
`firstOcc seen l` drops the elements of `seen` as well; dict keys are
`firstOcc [] (pairs.map fst)`, matching Python dict key order. -/
def firstOcc {κ : Type*} [DecidableEq κ] : List κ → List κ → List κ
  | _, [] => []
  | seen, a :: t => if a ∈ seen then firstOcc seen t else a :: firstOcc (a :: seen) t

/-- The keys of a Python dict built from `pairs`, in insertion order (one
entry per distinct key, at its first occurrence). -/
def pyKeys {κ ν : Type*} [DecidableEq κ] (pairs : List (κ × ν)) : List κ :=
  firstOcc [] (pairs.map (fun p => p.1))

/-- The `.items()` view of a Python dict built from `pairs`: one pair per
distinct key, carrying the key's final (last-bound) value. -/
def pyDictItems {κ ν : Type*} [DecidableEq κ] (pairs : List (κ × ν)) : List (κ × ν) :=
  (pyKeys pairs).filterMap (fun k => (pyDictLookup pairs k).map (fun v => (k, v)))

/-- `len(dict)` of a Python dict built from `pairs`: the number of distinct
keys. -/
def pyDictSize {κ ν : Type*} [DecidableEq κ] (pairs : List (κ × ν)) : ℕ :=
  (pyKeys pairs).length

/-- The pair list of (element, position) built from `enumerate(l)`, the raw
material of the identifier-map dict comprehensions of `fit_data` (each
`uid` is bound to its index `idx`). -/
def idPairs {α : Type*} (l : List α) : List (α × ℕ) :=
  l.enum.map (fun p => (p.2, p.1))

/-- `user_id_map` / `item_id_map` of `fit_data`: external identifier to
internal index, where a duplicated identifier keeps the index of its last
occurrence (dict overwrite). -/
def idMapOf {α : Type*} [DecidableEq α] (l : List α) : α → Option ℕ :=
  pyDictLookup (idPairs l)

/-- `len(user_id_map)` / `len(item_id_map)`: the number of distinct
identifiers, used by `fit_data` as the embedding-table size and as the
interaction-matrix dimension. -/
def numIdsOf {α : Type*} [DecidableEq α] (l : List α) : ℕ :=
  pyDictSize (idPairs l)

/-- `internal_to_user` / `internal_to_item` of `fit_data`: the dict
comprehension binding each `idx` of `user_id_map.items()` back to its
`uid`. -/
def internalToIdOf {α : Type*} [DecidableEq α] (l : List α) : ℕ → Option α :=
  pyDictLookup ((pyDictItems (idPairs l)).map (fun q => (q.2, q.1)))

/-- The parameters of `OptimizedMatrixFactorizationModel`: the four
embedding tables, the optional per-user / per-item bias vectors and the
global bias.  Tables are total functions `internal index → coordinate →
value`; `dim` is `embedding_dim`. -/
structure ModelWeights where
  dim : ℕ
  userEmb : ℕ → ℕ → ℚ
  itemEmb : ℕ → ℕ → ℚ
  userFeatEmb : ℕ → ℕ → ℚ
  itemFeatEmb : ℕ → ℕ → ℚ
  useBias : Bool
  userBias : ℕ → ℚ
  itemBias : ℕ → ℚ
  globalBias : ℚ

/-- `_process_features`: for each `(entity, feature list)` tuple whose
entity is in the identifier map, collect the `(feature index, 1.0)` pairs
of the features present in the feature vocabulary; entities whose list
comes out empty are omitted from the dict. -/
def processFeatures {α φ : Type*} [DecidableEq α] [DecidableEq φ]
    (featureData : List (α × List φ)) (idMap : α → Option ℕ) (featMap : φ → Option ℕ) :
    List (ℕ × List (ℕ × ℚ)) :=
  featureData.filterMap (fun p =>
    match idMap p.1 with
    | none => none
    | some internalId =>
      let fs := p.2.filterMap (fun f => (featMap f).map (fun j => (j, (1 : ℚ))))
      if fs.isEmpty then none else some (internalId, fs))

/-- `user_feature_map` / `item_feature_map` of `fit_data`: each distinct
feature token receives an internal index.  The code enumerates a Python
set of the tokens; set iteration order is unspecified, so it is modelled
deterministically as first-discovery order (the claims below do not depend
on this order). -/
def featMapOf {α φ : Type*} [DecidableEq φ] (featureData : List (α × List φ)) : φ → Option ℕ :=
  idMapOf (firstOcc [] (featureData.flatMap (fun p => p.2)))

/-- `_update_feature_tensors` / `_precompute_feature_tensors`: the dense
per-entity feature aggregate.  Rows start at zero and each entity present
in the raw feature dict gets the sum of `featEmb[index] * value` over its
feature pairs. -/
def featureTensor (featEmb : ℕ → ℕ → ℚ) (rawFeatures : List (ℕ × List (ℕ × ℚ)))
    (entity k : ℕ) : ℚ :=
  match pyDictLookup rawFeatures entity with
  | none => 0
  | some fs => (fs.map (fun q => featEmb q.1 k * q.2)).sum

/-- The scale factor applied after the sigmoid (`3.0` in the code, chosen
to span the observed interaction-weight range). -/
def WEIGHT_SCALE : ℚ := 3

/-- `OptimizedMatrixFactorizationModel.forward_vectorized`: dot product of
the feature-augmented user and item embeddings, plus the bias terms when
`use_bias` is set.  `uft` / `ift` are the pre-aggregated feature tensors. -/
def forwardVectorized (w : ModelWeights) (uft ift : ℕ → ℕ → ℚ) (u i : ℕ) : ℚ :=
  ((List.range w.dim).map (fun k => (w.userEmb u k + uft u k) * (w.itemEmb i k + ift i k))).sum
  + (if w.useBias then w.userBias u + w.itemBias i + w.globalBias else 0)

/-- `torch.sigmoid(raw_predictions) * 3.0`, the prediction served at
inference time (`σ` stands for the sigmoid). -/
def predictScore (σ : ℚ → ℚ) (w : ModelWeights) (uft ift : ℕ → ℕ → ℚ) (u i : ℕ) : ℚ :=
  σ (forwardVectorized w uft ift u i) * WEIGHT_SCALE

/-- Dot product of two `dim`-dimensional vectors (spec side). -/
def dotQ (d : ℕ) (x y : ℕ → ℚ) : ℚ :=
  ((List.range d).map (fun k => x k * y k)).sum

/-- Modelled from the spec wording of section 4.2/4.3: the aggregated
feature embedding of an entity is the weighted sum of its active
feature-token embeddings, and the zero vector for an entity with no
recognized features. -/
def specFeatureAgg (featEmb : ℕ → ℕ → ℚ) (rawFeatures : List (ℕ × List (ℕ × ℚ)))
    (entity k : ℕ) : ℚ :=
  (((pyDictLookup rawFeatures entity).getD []).map (fun q => q.2 * featEmb q.1 k)).sum

/-- Spec formula: `effective_user_vec(u) = user_embedding[u] + user_feature_agg(u)`. -/
def specEffectiveUserVec (w : ModelWeights) (userRaw : List (ℕ × List (ℕ × ℚ))) (u : ℕ) :
    ℕ → ℚ :=
  fun k => w.userEmb u k + specFeatureAgg w.userFeatEmb userRaw u k

/-- Spec formula: `effective_item_vec(i) = item_embedding[i] + item_feature_agg(i)`. -/
def specEffectiveItemVec (w : ModelWeights) (itemRaw : List (ℕ × List (ℕ × ℚ))) (i : ℕ) :
    ℕ → ℚ :=
  fun k => w.itemEmb i k + specFeatureAgg w.itemFeatEmb itemRaw i k

/-- Spec formula: `raw_score = dot(effective_user_vec, effective_item_vec)`,
plus `user_bias[u] + item_bias[i] + global_bias` when bias is enabled. -/
def specRawScore (w : ModelWeights) (userRaw itemRaw : List (ℕ × List (ℕ × ℚ))) (u i : ℕ) : ℚ :=
  dotQ w.dim (specEffectiveUserVec w userRaw u) (specEffectiveItemVec w itemRaw i)
  + (if w.useBias then w.userBias u + w.itemBias i + w.globalBias else 0)

/-- Spec formula: `prediction = sigmoid(raw_score) * WEIGHT_SCALE`. -/
def specPrediction (σ : ℚ → ℚ) (w : ModelWeights) (userRaw itemRaw : List (ℕ × List (ℕ × ℚ)))
    (u i : ℕ) : ℚ :=
  σ (specRawScore w userRaw itemRaw u i) * WEIGHT_SCALE

/-- The chunk loop `for start_idx in range(0, num_items, batch_size)` of
the batched inference path: it yields the index lists
`[start, ..., min(start + batch_size, num_items) - 1]`.  The batch size is
`bpred + 1`; `fuel` only drives structural recursion (it is instantiated
with `n`, an upper bound on the number of chunks). -/
def chunksGo (bpred : ℕ) : ℕ → ℕ → ℕ → List (List ℕ)
  | 0, _, _ => []
  | fuel + 1, start, n =>
    if start < n then
      List.range' start (min (bpred + 1) (n - start)) :: chunksGo bpred fuel (start + (bpred + 1)) n
    else []

/-- All inference chunks for `n` items with batch size `bpred + 1`. -/
def chunkRanges (n bpred : ℕ) : List (List ℕ) :=
  chunksGo bpred n 0 n

/-- `np.concatenate(all_scores)`: concatenation of the per-chunk score
arrays, which raises when the list of arrays is empty. -/
def npConcatenate (ls : List (List ℚ)) : Except String (List ℚ) :=
  if ls.isEmpty then Except.error "need at least one array to concatenate"
  else Except.ok ls.flatten

/-- The batched scoring phase of `recommend_for_user`: score every item
index for user `uIdx` chunk by chunk and concatenate.  A zero step makes
Python's `range` raise before the loop starts. -/
def batchedScores (σ : ℚ → ℚ) (w : ModelWeights) (uft ift : ℕ → ℕ → ℚ)
    (uIdx numItems batchSize : ℕ) : Except String (List ℚ) :=
  match batchSize with
  | 0 => Except.error "range() arg 3 must not be zero"
  | b + 1 =>
    npConcatenate ((chunkRanges numItems b).map (fun c =>
      c.map (fun i => predictScore σ w uft ift uIdx i)))

/-- The `liked_items` set of `recommend_for_user`: internal indices of the
items `e` with an interaction `(user_id, e, 1)` whose item id is known to
the mapping. -/
def likedItemsOf {υ ι : Type*} [DecidableEq υ] [DecidableEq ι]
    (interactions : List (υ × ι × ℚ)) (userId : υ) (events : List ι) : List ℕ :=
  interactions.filterMap (fun t =>
    if t.1 = userId ∧ t.2.2 = 1 then idMapOf events t.2.1 else none)

/-- Insert an (index, score) pair into a descending-sorted list, after all
pairs with a score at least as large (so exact ties keep ascending index
order). -/
def insertDescPair (p : ℕ × ℚ) : List (ℕ × ℚ) → List (ℕ × ℚ)
  | [] => [p]
  | q :: t => if q.2 ≤ p.2 then p :: q :: t else q :: insertDescPair p t

/-- Stable insertion sort of (index, score) pairs by descending score. -/
def sortPairsDesc : List (ℕ × ℚ) → List (ℕ × ℚ)
  | [] => []
  | p :: t => insertDescPair p (sortPairsDesc t)

/-- `np.argsort(-scores)`: item indices in descending score order (ties
modelled as ascending index, see the header note). -/
def argsortDesc (scores : List ℚ) : List ℕ :=
  (sortPairsDesc scores.enum).map (fun p => p.1)

/-- The selection loop of `recommend_for_user`: walk the sorted indices,
skip an index in `liked` when filtering is on, translate the index through
`internal_to_item` (a missing key raises), append `(item_id, score)` and
stop as soon as `top_n` results have been collected. -/
def selectTop {ι : Type*} (revMap : ℕ → Option ι) (scores : List ℚ) (liked : List ℕ)
    (filterLiked : Bool) (topN : ℕ) (acc : List (ι × ℚ)) : List ℕ → Except String (List (ι × ℚ))
  | [] => Except.ok acc.reverse
  | idx :: rest =>
    if filterLiked && decide (idx ∈ liked) then
      selectTop revMap scores liked filterLiked topN acc rest
    else
      match revMap idx with
      | none => Except.error "KeyError"
      | some itemId =>
        let acc2 := (itemId, scores.getD idx 0) :: acc
        if topN ≤ acc2.length then Except.ok acc2.reverse
        else selectTop revMap scores liked filterLiked topN acc2 rest

/-- `OptimizedBeaconAI.recommend_for_user` (same structure in the
persistent variant): unknown user short-circuits to the empty list;
otherwise score all items in batches, build the liked set and collect the
top `topN` unfiltered items in descending score order. -/
def recommendForUser {υ ι φ ψ : Type*} [DecidableEq υ] [DecidableEq ι] [DecidableEq φ]
    [DecidableEq ψ] (σ : ℚ → ℚ) (w : ModelWeights) (users : List υ) (events : List ι)
    (userFeatures : List (υ × List φ)) (eventFeatures : List (ι × List ψ))
    (interactions : List (υ × ι × ℚ)) (userId : υ) (topN : ℕ) (filterLiked : Bool)
    (batchSize : ℕ) : Except String (List (ι × ℚ)) :=
  match idMapOf users userId with
  | none => Except.ok []
  | some uIdx =>
    let userRaw := processFeatures userFeatures (idMapOf users) (featMapOf userFeatures)
    let itemRaw := processFeatures eventFeatures (idMapOf events) (featMapOf eventFeatures)
    let uft := featureTensor w.userFeatEmb userRaw
    let ift := featureTensor w.itemFeatEmb itemRaw
    match batchedScores σ w uft ift uIdx (numIdsOf events) batchSize with
    | Except.error msg => Except.error msg
    | Except.ok scores =>
      selectTop (internalToIdOf events) scores (likedItemsOf interactions userId events)
        filterLiked topN [] (argsortDesc scores)

/-- `_compute_data_fingerprint`: the canonical value hashed by the code,
namely the five input sequences each in sorted order (see the header note
on md5). -/
def canonicalFingerprint {α β γ δ ε : Type*} [LinearOrder α] [LinearOrder β] [LinearOrder γ]
    [LinearOrder δ] [LinearOrder ε] (users : List α) (events : List β) (userFeatures : List γ)
    (eventFeatures : List δ) (interactions : List ε) :
    List α × List β × List γ × List δ × List ε :=
  (List.insertionSort (· ≤ ·) users,
   List.insertionSort (· ≤ ·) events,
   List.insertionSort (· ≤ ·) userFeatures,
   List.insertionSort (· ≤ ·) eventFeatures,
   List.insertionSort (· ≤ ·) interactions)

/-- `HuggingFaceBeaconAI.needs_training`: no stored record, a fingerprint
mismatch, or a record created before the current calendar date each force
retraining; otherwise the stored model is reused.  `stored` carries the
record's fingerprint and creation date (days as integers). -/
def needsTraining {FP : Type*} [DecidableEq FP] (stored : Option (FP × ℤ))
    (currentFingerprint : FP) (today : ℤ) : Bool :=
  match stored with
  | none => true
  | some (fp, createdDate) =>
    if fp ≠ currentFingerprint then true
    else if createdDate < today then true
    else false

/-- `SupabaseModelStorage.cleanup_old_models`: delete every cache record
whose creation date is before `now - daysToKeep` (the persistent file
variant deletes by the same age cutoff).  A record is `(owner key,
creation date)`. -/
def cleanupOldModels (records : List (ℕ × ℤ)) (now daysToKeep : ℤ) : List (ℕ × ℤ) :=
  records.filter (fun r => !decide (r.2 < now - daysToKeep))

/-- The bounded draw `np.random.randint(0, high, size=n)`: numpy
validates the bounds before generating anything and raises
`ValueError: low >= high` when `high = 0`, even for a zero-size request;
otherwise it returns `n` draws in `[0, high)` (the random values are
abstracted by `rng` and folded into range with `%`). -/
def npRandint (rng : ℕ → ℕ) (high n : ℕ) : Except String (List ℕ) :=
  if high = 0 then Except.error "low >= high"
  else Except.ok ((List.range n).map (fun k => rng k % high))

/-- `int(len(pos_user_ids) * negative_sampling_ratio)`. -/
def numNegatives (negRate : ℚ) (numPos : ℕ) : ℕ :=
  (Int.floor (negRate * numPos)).toNat

/-- Split a list into consecutive batches of size `bpred + 1` (the
mini-batch loop over the shuffled training set); `fuel` drives structural
recursion and is instantiated with the list length. -/
def chunksOfListGo (bpred : ℕ) : ℕ → List α → List (List α)
  | 0, _ => []
  | _, [] => []
  | fuel + 1, a :: t =>
    (a :: t).take (bpred + 1) :: chunksOfListGo bpred fuel ((a :: t).drop (bpred + 1))

/-- All mini-batches of a training list for batch size `bpred + 1`. -/
def chunksOfList (bpred : ℕ) (l : List α) : List (List α) :=
  chunksOfListGo bpred l.length l

/-- `OptimizedBeaconAI.train_model`.  The positive examples come from the
sparse interaction matrix.  Negative sampling runs *before* the
empty-dataset guard, in source order: first
`np.random.randint(0, len(user_id_map), size=num_negatives)`, then the
same over `len(item_id_map)` — so a fitted model with zero users or zero
items makes the bounds check raise `ValueError: low >= high` even when no
samples are requested.  Only then: if the combined dataset is empty the
function logs a warning and returns with the model untouched; otherwise
it runs `epochs` passes over the per-epoch shuffled dataset (`shuffle`)
in mini-batches, applying one optimizer step per batch.  The torch
optimizer/autograd step is an external library call abstracted as
`update`; the loss-driven scheduler and early stopping only decide how
many `update` steps run inside the non-empty branch and are subsumed by
`update`/`epochs`. -/
def trainModel (update : ModelWeights → List (ℕ × ℕ × ℚ) → ModelWeights)
    (shuffle : ℕ → List (ℕ × ℕ × ℚ) → List (ℕ × ℕ × ℚ)) (rngUser rngItem : ℕ → ℕ)
    (w : ModelWeights) (numUsers numItems : ℕ) (positives : List (ℕ × ℕ × ℚ))
    (epochs batchSize : ℕ) (negRate : ℚ) : Except String ModelWeights :=
  match npRandint rngUser numUsers (numNegatives negRate positives.length) with
  | Except.error msg => Except.error msg
  | Except.ok negUsers =>
    match npRandint rngItem numItems (numNegatives negRate positives.length) with
    | Except.error msg => Except.error msg
    | Except.ok negItems =>
      let dataset := positives ++ (negUsers.zip negItems).map (fun p => (p.1, p.2, (0 : ℚ)))
      if dataset.length = 0 then Except.ok w
      else
        match batchSize with
        | 0 => Except.error "range() arg 3 must not be zero"
        | b + 1 =>
          Except.ok ((List.range epochs).foldl
            (fun wAcc e => (chunksOfList b (shuffle e dataset)).foldl update wAcc) w)

/-- A concrete fitted model with embedding dimension 0, all-zero tables
and bias disabled, used to evaluate the engine on small inputs. -/
def zeroWeights : ModelWeights :=
  ⟨0, fun _ _ => 0, fun _ _ => 0, fun _ _ => 0, fun _ _ => 0, false,
   fun _ => 0, fun _ => 0, 0⟩

-- ------------------------------------------------------------------
-- Theorems
-- ------------------------------------------------------------------

/-- The two feature aggregates coincide: the dense feature tensor computed
by `_update_feature_tensors` is exactly the spec's weighted sum of active
feature-token embeddings (zero for an entity with no recognized features). -/
theorem featureTensor_eq_specFeatureAgg (featEmb : ℕ → ℕ → ℚ)
    (rawFeatures : List (ℕ × List (ℕ × ℚ))) (entity k : ℕ) :
    featureTensor featEmb rawFeatures entity k = specFeatureAgg featEmb rawFeatures entity k := by
  unfold featureTensor specFeatureAgg
  cases h : pyDictLookup rawFeatures entity with
  | none => simp
  | some fs => simp [mul_comm]

/-- C1: for every user and item index of a fitted model, the served
prediction equals `sigmoid(dot(user_embedding[u] + user_feature_agg(u),
item_embedding[i] + item_feature_agg(i)) + user_bias[u] + item_bias[i] +
global_bias  when bias is enabled) * WEIGHT_SCALE` with `WEIGHT_SCALE = 3`,
where the feature aggregates are the weighted sums of the active
feature-token embeddings (the zero vector for an entity with no recognized
features).  `σ` abstracts the sigmoid. -/
theorem predictScore_eq_specPrediction (σ : ℚ → ℚ) (w : ModelWeights)
    (userRaw itemRaw : List (ℕ × List (ℕ × ℚ))) (u i : ℕ) :
    predictScore σ w (featureTensor w.userFeatEmb userRaw) (featureTensor w.itemFeatEmb itemRaw) u i
      = specPrediction σ w userRaw itemRaw u i := by
  unfold predictScore specPrediction forwardVectorized specRawScore dotQ
  unfold specEffectiveUserVec specEffectiveItemVec
  congr 2
  simp only [featureTensor_eq_specFeatureAgg]

/-- Unfolding `idPairs` over a final element. -/
theorem idPairs_concat {α : Type*} (l : List α) (x : α) :
    idPairs (l ++ [x]) = idPairs l ++ [(x, l.length)] := by
  unfold idPairs List.enum
  rw [List.enumFrom_append]
  simp [List.enumFrom]

/-- The first components of `idPairs l` are just `l`. -/
theorem idPairs_map_fst {α : Type*} (l : List α) : (idPairs l).map (fun p => p.1) = l := by
  unfold idPairs
  rw [List.map_map]
  exact List.enum_map_snd l

section IdentifierMapper

variable {α : Type*} [DecidableEq α]

/-- Looking up in a map built from `l ++ [x]`: the last element wins. -/
theorem idMapOf_concat (l : List α) (x a : α) :
    idMapOf (l ++ [x]) a = if a = x then some l.length else idMapOf l a := by
  unfold idMapOf pyDictLookup
  rw [idPairs_concat, List.reverse_append]
  by_cases h : a = x
  · subst h
    simp [List.find?]
  · rw [if_neg h]
    have hx : (decide ((x, l.length).1 = a)) = false := by
      simp only [decide_eq_false_iff_not]
      exact fun hxa => h hxa.symm
    simp [List.find?, hx]

theorem idMapOf_nil (a : α) : idMapOf ([] : List α) a = none := rfl

/-- An assigned internal index is an index into the input sequence. -/
theorem idMapOf_lt_length (l : List α) (a : α) (j : ℕ) (h : idMapOf l a = some j) :
    j < l.length := by
  induction l using List.reverseRecOn generalizing j with
  | nil => simp [idMapOf_nil] at h
  | append_singleton t x ih =>
    rw [idMapOf_concat] at h
    by_cases hx : a = x
    · simp [hx] at h
      simp [← h]
    · rw [if_neg hx] at h
      have := ih _ h
      simp
      omega

/-- The assigned internal index points back at an occurrence of the
identifier. -/
theorem getElem?_of_idMapOf (l : List α) (a : α) (j : ℕ) (h : idMapOf l a = some j) :
    l[j]? = some a := by
  induction l using List.reverseRecOn generalizing j with
  | nil => simp [idMapOf_nil] at h
  | append_singleton t x ih =>
    rw [idMapOf_concat] at h
    by_cases hx : a = x
    · rw [if_pos hx] at h
      obtain rfl : t.length = j := by simpa using h
      rw [List.getElem?_concat_length, hx]
    · rw [if_neg hx] at h
      rw [List.getElem?_append_left (idMapOf_lt_length t a j h)]
      exact ih _ h

/-- Every identifier occurring in the sequence receives an index. -/
theorem idMapOf_isSome_of_mem (l : List α) (a : α) (h : a ∈ l) :
    ∃ j, idMapOf l a = some j := by
  induction l using List.reverseRecOn with
  | nil => simp at h
  | append_singleton t x ih =>
    rw [List.mem_append, List.mem_singleton] at h
    by_cases hx : a = x
    · exact ⟨t.length, by rw [idMapOf_concat, if_pos hx]⟩
    · obtain ⟨j, hj⟩ := ih (h.resolve_right hx)
      exact ⟨j, by rw [idMapOf_concat, if_neg hx, hj]⟩

/-- An identifier with an index is a member of the input sequence. -/
theorem mem_of_idMapOf (l : List α) (a : α) (j : ℕ) (h : idMapOf l a = some j) : a ∈ l := by
  have hj := idMapOf_lt_length l a j h
  have := getElem?_of_idMapOf l a j h
  rw [List.getElem?_eq_getElem hj] at this
  rw [← Option.some_injective _ this]
  exact List.getElem_mem hj

/-- Distinct identifiers receive distinct indices (the map is a function of
the identifier). -/
theorem idMapOf_inj (l : List α) (a b : α) (j : ℕ)
    (ha : idMapOf l a = some j) (hb : idMapOf l b = some j) : a = b := by
  have h1 := getElem?_of_idMapOf l a j ha
  have h2 := getElem?_of_idMapOf l b j hb
  rw [h1] at h2
  exact Option.some_injective _ h2

/-- Membership in `firstOcc`. -/
theorem mem_firstOcc (l seen : List α) (x : α) :
    x ∈ firstOcc seen l ↔ x ∈ l ∧ x ∉ seen := by
  induction l generalizing seen with
  | nil => simp [firstOcc]
  | cons a t ih =>
    unfold firstOcc
    by_cases ha : a ∈ seen
    · rw [if_pos ha, ih]
      constructor
      · exact fun ⟨h1, h2⟩ => ⟨List.mem_cons_of_mem a h1, h2⟩
      · rintro ⟨h1, h2⟩
        rcases List.mem_cons.mp h1 with rfl | h1
        · exact absurd ha h2
        · exact ⟨h1, h2⟩
    · rw [if_neg ha]
      simp only [List.mem_cons, ih]
      constructor
      · rintro (rfl | ⟨h1, h2⟩)
        · exact ⟨Or.inl rfl, ha⟩
        · exact ⟨Or.inr h1, fun hs => h2 (Or.inr hs)⟩
      · rintro ⟨rfl | h1, h2⟩
        · exact Or.inl rfl
        · by_cases hxa : x = a
          · exact Or.inl hxa
          · exact Or.inr ⟨h1, fun hs => hs.elim hxa h2⟩

/-- `firstOcc` produces no duplicates. -/
theorem nodup_firstOcc (l seen : List α) : (firstOcc seen l).Nodup := by
  induction l generalizing seen with
  | nil => simp [firstOcc]
  | cons a t ih =>
    unfold firstOcc
    by_cases ha : a ∈ seen
    · rw [if_pos ha]; exact ih seen
    · rw [if_neg ha]
      refine List.nodup_cons.mpr ⟨fun hmem => ?_, ih (a :: seen)⟩
      exact ((mem_firstOcc t (a :: seen) a).mp hmem).2 (List.mem_cons_self a seen)

/-- The dict keys of the identifier map are the distinct identifiers in
first-occurrence order. -/
theorem pyKeys_idPairs (l : List α) : pyKeys (idPairs l) = firstOcc [] l := by
  unfold pyKeys
  rw [idPairs_map_fst]

/-- The size of the identifier map is the number of distinct identifiers. -/
theorem numIdsOf_eq_card (l : List α) : numIdsOf l = l.toFinset.card := by
  unfold numIdsOf pyDictSize
  rw [pyKeys_idPairs]
  have hnd := nodup_firstOcc l ([] : List α)
  have : (firstOcc [] l).toFinset = l.toFinset := by
    ext x
    simp [List.mem_toFinset, mem_firstOcc]
  rw [← List.toFinset_card_of_nodup hnd, this]

end IdentifierMapper

/-- A successful dict lookup returns a value that was bound to the key. -/
theorem pyDictLookup_eq_some {κ ν : Type*} [DecidableEq κ] (pairs : List (κ × ν)) (k : κ) (v : ν)
    (h : pyDictLookup pairs k = some v) : (k, v) ∈ pairs := by
  unfold pyDictLookup at h
  cases hf : (pairs.reverse.find? (fun p => decide (p.1 = k))) with
  | none => rw [hf] at h; simp at h
  | some p =>
    rw [hf] at h
    simp only [Option.map_some', Option.some.injEq] at h
    have hp := List.find?_some hf
    rw [decide_eq_true_eq] at hp
    have hmem := List.mem_of_find?_eq_some hf
    rw [List.mem_reverse] at hmem
    obtain ⟨pk, pv⟩ := p
    dsimp at hp h
    rw [← hp, ← h]
    exact hmem

/-- A key that appears among the pairs has a successful dict lookup. -/
theorem pyDictLookup_isSome_of_mem {κ ν : Type*} [DecidableEq κ] (pairs : List (κ × ν))
    (k : κ) (v : ν) (h : (k, v) ∈ pairs) : ∃ v2, pyDictLookup pairs k = some v2 := by
  unfold pyDictLookup
  have hs : ((pairs.reverse.find? (fun p => decide (p.1 = k)))).isSome := by
    rw [List.find?_isSome]
    exact ⟨(k, v), List.mem_reverse.mpr h, by simp⟩
  obtain ⟨p, hp⟩ := Option.isSome_iff_exists.mp hs
  exact ⟨p.2, by rw [hp]; rfl⟩

section ReverseMap

variable {α : Type*} [DecidableEq α]

/-- A successful reverse-map lookup names the identifier that the forward
map sends to that index. -/
theorem idMapOf_of_internalToIdOf (l : List α) (j : ℕ) (a : α)
    (h : internalToIdOf l j = some a) : idMapOf l a = some j := by
  unfold internalToIdOf at h
  have hmem := pyDictLookup_eq_some _ _ _ h
  rw [List.mem_map] at hmem
  obtain ⟨q, hq, hqe⟩ := hmem
  unfold pyDictItems at hq
  rw [List.mem_filterMap] at hq
  obtain ⟨k, _, hkv⟩ := hq
  cases hlk : pyDictLookup (idPairs l) k with
  | none => rw [hlk] at hkv; simp at hkv
  | some v =>
    rw [hlk] at hkv
    simp only [Option.map_some', Option.some.injEq] at hkv
    rw [← hkv] at hqe
    obtain ⟨h1, h2⟩ := Prod.mk.injEq .. ▸ hqe
    dsimp at h1 h2
    subst h1
    subst h2
    exact hlk

/-- The reverse map hits exactly the indices that the forward map assigns:
`internal_to_item[j] = e` iff `item_id_map[e] = j`. -/
theorem internalToIdOf_eq_some_iff (l : List α) (j : ℕ) (a : α) :
    internalToIdOf l j = some a ↔ idMapOf l a = some j := by
  constructor
  · exact idMapOf_of_internalToIdOf l j a
  · intro h
    have hmem : a ∈ pyKeys (idPairs l) := by
      rw [pyKeys_idPairs, mem_firstOcc]
      exact ⟨mem_of_idMapOf l a j h, List.not_mem_nil a⟩
    have hpair : ((j : ℕ), a) ∈ (pyDictItems (idPairs l)).map (fun q => (q.2, q.1)) := by
      rw [List.mem_map]
      refine ⟨(a, j), ?_, rfl⟩
      unfold pyDictItems
      rw [List.mem_filterMap]
      refine ⟨a, hmem, ?_⟩
      rw [show pyDictLookup (idPairs l) a = idMapOf l a from rfl, h]
      rfl
    obtain ⟨b, hb⟩ := pyDictLookup_isSome_of_mem _ _ _ hpair
    have hb2 : internalToIdOf l j = some b := hb
    have hba : idMapOf l b = some j := idMapOf_of_internalToIdOf l j b hb2
    rw [idMapOf_inj l b a j hba h] at hb2
    exact hb2

/-- On a duplicate-free sequence the forward map sends the element at
position `j` to `j` itself. -/
theorem idMapOf_getElem (l : List α) (h : l.Nodup) (j : ℕ) (hj : j < l.length) :
    idMapOf l (l[j]) = some j := by
  obtain ⟨j2, hj2⟩ := idMapOf_isSome_of_mem l _ (List.getElem_mem hj)
  have hget := getElem?_of_idMapOf l _ _ hj2
  have hlt := idMapOf_lt_length l _ _ hj2
  have hjj : j2 = j := by
    apply List.getElem?_inj hlt h
    rw [hget, List.getElem?_eq_getElem hj]
  rw [hjj] at hj2
  exact hj2

/-- On a sequence that does contain a duplicate, some identifier is mapped
to an index at or above the table size. -/
theorem idMapOf_overflow_of_not_nodup (l : List α) (h : ¬ l.Nodup) :
    ∃ a j, idMapOf l a = some j ∧ numIdsOf l ≤ j := by
  have hne : l ≠ [] := by rintro rfl; exact h List.nodup_nil
  obtain ⟨L, b, rfl⟩ := (l.eq_nil_or_concat).resolve_left hne
  rw [List.concat_eq_append] at h ⊢
  refine ⟨b, L.length, ?_, ?_⟩
  · rw [idMapOf_concat]; simp
  · have hlt : (L ++ [b]).dedup.length < (L ++ [b]).length := by
      have h1 := (List.dedup_sublist (L ++ [b])).length_le
      rcases lt_or_eq_of_le h1 with h2 | h2
      · exact h2
      · exact absurd (((List.dedup_sublist (L ++ [b])).eq_of_length h2) ▸
          (L ++ [b]).nodup_dedup) h
    rw [numIdsOf_eq_card, List.card_toFinset]
    simp only [List.length_append, List.length_singleton] at hlt
    omega

end ReverseMap

/-- C10: when the identifier sequence given to `fit_data` has no
duplicates, every internal index assigned by the identifier map is
strictly below the table size `numIdsOf` (the number of distinct
identifiers, which sizes the embedding tables and the interaction matrix),
and every index below that size has a reverse-map entry, so lookups during
training and recommendation are in range.  When the sequence does contain
a duplicate, some assigned index reaches or exceeds the table size and
some index below the size has no reverse-map entry, so the in-range
precondition fails. -/
theorem index_range_nodup_dup {α : Type*} [DecidableEq α] (l : List α) :
    (l.Nodup →
      (∀ a j, idMapOf l a = some j → j < numIdsOf l)
      ∧ (∀ j, j < numIdsOf l → ∃ a, internalToIdOf l j = some a))
    ∧ (¬ l.Nodup →
      (∃ a j, idMapOf l a = some j ∧ numIdsOf l ≤ j)
      ∧ (∃ j, j < numIdsOf l ∧ internalToIdOf l j = none)) := by
  constructor
  · intro hnd
    have hlen : numIdsOf l = l.length := by
      rw [numIdsOf_eq_card, List.toFinset_card_of_nodup hnd]
    constructor
    · intro a j h
      rw [hlen]
      exact idMapOf_lt_length l a j h
    · intro j hj
      rw [hlen] at hj
      exact ⟨l[j], (internalToIdOf_eq_some_iff l j _).mpr (idMapOf_getElem l hnd j hj)⟩
  · intro hnd
    refine ⟨idMapOf_overflow_of_not_nodup l hnd, ?_⟩
    obtain ⟨a0, j0, hj0, hge⟩ := idMapOf_overflow_of_not_nodup l hnd
    by_contra hno
    push_neg at hno
    have hS : ∀ j, (∃ a, idMapOf l a = some j) →
        j ∈ l.toFinset.image (fun a => (idMapOf l a).getD 0) := by
      rintro j ⟨a, ha⟩
      rw [Finset.mem_image]
      exact ⟨a, List.mem_toFinset.mpr (mem_of_idMapOf l a j ha), by rw [ha]; rfl⟩
    have hcard : (l.toFinset.image (fun a => (idMapOf l a).getD 0)).card = numIdsOf l := by
      rw [numIdsOf_eq_card]
      apply Finset.card_image_of_injOn
      intro a ha b hb hab
      obtain ⟨ja, hja⟩ := idMapOf_isSome_of_mem l a (List.mem_toFinset.mp ha)
      obtain ⟨jb, hjb⟩ := idMapOf_isSome_of_mem l b (List.mem_toFinset.mp hb)
      simp only [hja, hjb, Option.getD_some] at hab
      rw [← hab] at hjb
      exact idMapOf_inj l a b ja hja hjb
    have hsub : insert j0 (Finset.range (numIdsOf l)) ⊆
        l.toFinset.image (fun a => (idMapOf l a).getD 0) := by
      intro j hj
      rcases Finset.mem_insert.mp hj with heq | hj
      · rw [heq]; exact hS j0 ⟨a0, hj0⟩
      · rw [Finset.mem_range] at hj
        obtain ⟨a, ha⟩ := Option.ne_none_iff_exists'.mp (hno j hj)
        exact hS j ⟨a, idMapOf_of_internalToIdOf l j a ha⟩
    have hj0ni : j0 ∉ Finset.range (numIdsOf l) := by rw [Finset.mem_range]; omega
    have hle := Finset.card_le_card hsub
    rw [Finset.card_insert_of_not_mem hj0ni, Finset.card_range, hcard] at hle
    omega

/-- C10 witness: on the duplicate-free sequence `[10, 20]` all assigned
indices are in range and the reverse map is total below the size; on
`[0, 1, 0]` (a duplicate) some index reaches the size `2` and one index
below `2` is missing from the reverse map. -/
theorem index_range_nodup_dup_witness :
    ((∀ a j, idMapOf ([10, 20] : List ℕ) a = some j → j < numIdsOf ([10, 20] : List ℕ))
      ∧ (∀ j, j < numIdsOf ([10, 20] : List ℕ) →
          ∃ a, internalToIdOf ([10, 20] : List ℕ) j = some a))
    ∧ ((∃ a j, idMapOf ([0, 1, 0] : List ℕ) a = some j ∧ numIdsOf ([0, 1, 0] : List ℕ) ≤ j)
      ∧ (∃ j, j < numIdsOf ([0, 1, 0] : List ℕ) ∧ internalToIdOf ([0, 1, 0] : List ℕ) j = none)) :=
  ⟨(index_range_nodup_dup [10, 20]).1 (by decide),
   (index_range_nodup_dup [0, 1, 0]).2 (by decide)⟩

/-- Every pair returned by the selection loop (beyond the accumulator it
started from) stems from an index that passed the liked-filter and was
translated through the reverse map. -/
theorem selectTop_mem {ι : Type*} (revMap : ℕ → Option ι) (scores : List ℚ) (liked : List ℕ)
    (topN : ℕ) :
    ∀ (order : List ℕ) (acc l : List (ι × ℚ)),
      selectTop revMap scores liked true topN acc order = Except.ok l →
      ∀ p ∈ l, p ∈ acc ∨ ∃ idx, idx ∉ liked ∧ revMap idx = some p.1 := by
  intro order
  induction order with
  | nil =>
    intro acc l h p hp
    unfold selectTop at h
    obtain rfl : acc.reverse = l := by simpa using h
    exact Or.inl (List.mem_reverse.mp hp)
  | cons idx rest ih =>
    intro acc l h p hp
    unfold selectTop at h
    simp only [Bool.true_and] at h
    by_cases hl : idx ∈ liked
    · rw [if_pos (by simpa using hl)] at h
      exact ih acc l h p hp
    · rw [if_neg (by simpa using hl)] at h
      cases hrev : revMap idx with
      | none => rw [hrev] at h; simp at h
      | some itemId =>
        rw [hrev] at h
        dsimp only at h
        by_cases htop : topN ≤ ((itemId, scores.getD idx 0) :: acc).length
        · rw [if_pos htop] at h
          obtain rfl : ((itemId, scores.getD idx 0) :: acc).reverse = l := by simpa using h
          have hp2 : p ∈ (itemId, scores.getD idx 0) :: acc := List.mem_reverse.mp hp
          rcases List.mem_cons.mp hp2 with rfl | hp3
          · exact Or.inr ⟨idx, hl, hrev⟩
          · exact Or.inl hp3
        · rw [if_neg htop] at h
          rcases ih _ l h p hp with hin | hex
          · rcases List.mem_cons.mp hin with rfl | hp3
            · exact Or.inr ⟨idx, hl, hrev⟩
            · exact Or.inl hp3
          · exact Or.inr hex

/-- C2 (amended): with exclusion filtering enabled, no item carrying an
interaction triple of weight exactly 1 for the requesting user appears in
the returned list.  (The code builds its exclusion set only from triples
with `v == 1`; see the counterexample for triples of other weights.) -/
theorem recommend_excludes_weight_one {υ ι φ ψ : Type*} [DecidableEq υ] [DecidableEq ι]
    [DecidableEq φ] [DecidableEq ψ] (σ : ℚ → ℚ) (w : ModelWeights) (users : List υ)
    (events : List ι) (userFeatures : List (υ × List φ)) (eventFeatures : List (ι × List ψ))
    (interactions : List (υ × ι × ℚ)) (userId : υ) (topN batchSize : ℕ)
    (l : List (ι × ℚ)) (e : ι) (v : ℚ)
    (hok : recommendForUser σ w users events userFeatures eventFeatures interactions userId
      topN true batchSize = Except.ok l)
    (hmem : (userId, e, v) ∈ interactions) (hv : v = 1) :
    e ∉ l.map Prod.fst := by
  intro hcontra
  rw [List.mem_map] at hcontra
  obtain ⟨p, hp, hpe⟩ := hcontra
  unfold recommendForUser at hok
  cases hu : idMapOf users userId with
  | none =>
    rw [hu] at hok
    obtain rfl : ([] : List (ι × ℚ)) = l := by simpa using hok
    simp at hp
  | some uIdx =>
    rw [hu] at hok
    dsimp only at hok
    cases hs : batchedScores σ w
        (featureTensor w.userFeatEmb (processFeatures userFeatures (idMapOf users)
          (featMapOf userFeatures)))
        (featureTensor w.itemFeatEmb (processFeatures eventFeatures (idMapOf events)
          (featMapOf eventFeatures)))
        uIdx (numIdsOf events) batchSize with
    | error msg => rw [hs] at hok; simp at hok
    | ok scores =>
      rw [hs] at hok
      rcases selectTop_mem (internalToIdOf events) scores
          (likedItemsOf interactions userId events) topN (argsortDesc scores) [] l hok p hp with
        hin | ⟨idx, hnl, hrev⟩
      · simp at hin
      · have hmap : idMapOf events e = some idx := by
          have h2 := idMapOf_of_internalToIdOf events idx p.1 hrev
          rwa [hpe] at h2
        apply hnl
        unfold likedItemsOf
        rw [List.mem_filterMap]
        refine ⟨(userId, e, v), hmem, ?_⟩
        rw [if_pos ⟨rfl, hv⟩]
        exact hmap

/-- C2 counterexample: the claim as stated — no item the user has already
interacted with (as supplied in `interactions`, with filtering enabled)
appears in the result — is false.  User 5 has interacted with item 77 with
weight 2, yet item 77 is returned: the code only excludes triples of
weight exactly 1.  The failure is independent of the sigmoid, so any
strictly monotone stand-in (here `id`) refutes the universally quantified
claim. -/
theorem exclusion_claim_counterexample :
    ¬ (∀ σ : ℚ → ℚ, StrictMono σ → ∀ l : List (ℕ × ℚ),
        recommendForUser σ zeroWeights [5] [77] ([] : List (ℕ × List ℕ))
          ([] : List (ℕ × List ℕ)) [(5, 77, 2)] 5 5 true 1024 = Except.ok l →
        (77 : ℕ) ∉ l.map Prod.fst) := by
  intro h
  exact h id strictMono_id [(77, 0)] (by with_unfolding_all decide) (by decide)

/-- C2 witness: on a concrete fitted model, user 1 has a weight-1
interaction with item 7; the recommendation list is exactly `[(8, 0)]` and
item 7 indeed does not appear in it. -/
theorem recommend_excludes_weight_one_witness :
    recommendForUser id zeroWeights [1] [7, 8] ([] : List (ℕ × List ℕ))
      ([] : List (ℕ × List ℕ)) [(1, 7, 1)] 1 5 true 1024 = Except.ok [(8, 0)]
    ∧ (7 : ℕ) ∉ ([((8 : ℕ), (0 : ℚ))].map Prod.fst) :=
  ⟨by with_unfolding_all decide,
   recommend_excludes_weight_one id zeroWeights [1] [7, 8] ([] : List (ℕ × List ℕ))
     ([] : List (ℕ × List ℕ)) [(1, 7, 1)] 1 5 1024 [(8, 0)] 7 1
     (by with_unfolding_all decide) (by decide) rfl⟩

/-- C6: a recommendation request for a user id unknown to the current
mapping returns the empty list, raising no exception. -/
theorem unknown_user_empty_recommendations {υ ι φ ψ : Type*} [DecidableEq υ] [DecidableEq ι]
    [DecidableEq φ] [DecidableEq ψ] (σ : ℚ → ℚ) (w : ModelWeights) (users : List υ)
    (events : List ι) (userFeatures : List (υ × List φ)) (eventFeatures : List (ι × List ψ))
    (interactions : List (υ × ι × ℚ)) (userId : υ) (topN : ℕ) (filterLiked : Bool)
    (batchSize : ℕ) (h : idMapOf users userId = none) :
    recommendForUser σ w users events userFeatures eventFeatures interactions userId topN
      filterLiked batchSize = Except.ok [] := by
  unfold recommendForUser
  rw [h]

/-- C6 witness: user 9 is not among the fitted users `[1, 2]`, and the
recommendation call returns the empty list. -/
theorem unknown_user_empty_recommendations_witness :
    idMapOf ([1, 2] : List ℕ) 9 = none
    ∧ recommendForUser id zeroWeights [1, 2] [7, 8] ([] : List (ℕ × List ℕ))
        ([] : List (ℕ × List ℕ)) [(1, 7, 1)] 9 5 true 1024 = Except.ok [] :=
  ⟨by decide,
   unknown_user_empty_recommendations id zeroWeights [1, 2] [7, 8] [] [] [(1, 7, 1)] 9 5 true
     1024 (by decide)⟩

/-- C9: on a fitted model with zero candidate items, a recommendation call
for a known user (`3` is the only, hence a mapped, user) does not return
the empty list; it raises `ValueError: need at least one array to
concatenate` from `np.concatenate(all_scores)` on the empty list of score
batches.  The spec requires the empty list instead. -/
theorem empty_items_recommend_raises :
    idMapOf ([3] : List ℕ) 3 = some 0
    ∧ recommendForUser id zeroWeights [3] ([] : List ℕ) ([] : List (ℕ × List ℕ))
        ([] : List (ℕ × List ℕ)) ([] : List (ℕ × ℕ × ℚ)) 3 5 true 1024
      = Except.error "need at least one array to concatenate" := by
  exact ⟨by decide, by with_unfolding_all decide⟩

/-- Flattening the chunk loop recovers the contiguous index range. -/
theorem chunksGo_flatten (b n : ℕ) :
    ∀ (fuel start : ℕ), n - start ≤ fuel →
      (chunksGo b fuel start n).flatten = List.range' start (n - start) := by
  intro fuel
  induction fuel with
  | zero =>
    intro start h
    rw [Nat.le_zero.mp h]
    simp [chunksGo]
  | succ fuel ih =>
    intro start h
    unfold chunksGo
    by_cases hlt : start < n
    · rw [if_pos hlt, List.flatten_cons, ih (start + (b + 1)) (by omega)]
      by_cases hfit : start + (b + 1) ≤ n
      · have hmin : min (b + 1) (n - start) = b + 1 := by omega
        rw [hmin]
        have happ := List.range'_append start (b + 1) (n - (start + (b + 1))) 1
        rw [one_mul] at happ
        rw [happ]
        congr 1
        omega
      · have hmin : min (b + 1) (n - start) = n - start := by omega
        have hz : n - (start + (b + 1)) = 0 := by omega
        rw [hmin, hz]
        simp
    · rw [if_neg hlt]
      have hz : n - start = 0 := by omega
      rw [hz]
      simp

/-- All chunks together enumerate exactly the item indices `0 .. n-1`. -/
theorem chunkRanges_flatten (n b : ℕ) : (chunkRanges n b).flatten = List.range n := by
  unfold chunkRanges
  rw [chunksGo_flatten b n n 0 (by omega), Nat.sub_zero, List.range_eq_range']

/-- The chunk list is empty exactly when there are no items. -/
theorem chunkRanges_eq_nil_iff (n b : ℕ) : chunkRanges n b = [] ↔ n = 0 := by
  cases n with
  | zero => simp [chunkRanges, chunksGo]
  | succ m =>
    simp only [chunkRanges]
    unfold chunksGo
    rw [if_pos (Nat.succ_pos m)]
    simp

/-- For every positive batch size the batched scoring phase computes the
same thing: an error on zero items, and otherwise the full per-item score
vector in item-index order. -/
theorem batchedScores_succ (σ : ℚ → ℚ) (w : ModelWeights) (uft ift : ℕ → ℕ → ℚ)
    (uIdx n b2 : ℕ) :
    batchedScores σ w uft ift uIdx n (b2 + 1) =
      npConcatenate ((chunkRanges n b2).map (fun c =>
        c.map (fun i => predictScore σ w uft ift uIdx i))) := rfl

theorem batchedScores_eq (σ : ℚ → ℚ) (w : ModelWeights) (uft ift : ℕ → ℕ → ℚ)
    (uIdx n b : ℕ) (hb : 0 < b) :
    batchedScores σ w uft ift uIdx n b =
      if n = 0 then Except.error "need at least one array to concatenate"
      else Except.ok ((List.range n).map (fun i => predictScore σ w uft ift uIdx i)) := by
  obtain ⟨b2, rfl⟩ : ∃ b2, b = b2 + 1 := ⟨b - 1, by omega⟩
  rw [batchedScores_succ]
  unfold npConcatenate
  by_cases hn : n = 0
  · subst hn
    rw [if_pos rfl, (chunkRanges_eq_nil_iff 0 b2).mpr rfl]
    simp
  · rw [if_neg hn]
    have hne : chunkRanges n b2 ≠ [] := fun hcon => hn ((chunkRanges_eq_nil_iff n b2).mp hcon)
    have hisE : ((chunkRanges n b2).map (fun c =>
        c.map (fun i => predictScore σ w uft ift uIdx i))).isEmpty = false := by
      rw [List.isEmpty_eq_false]
      simpa using hne
    rw [hisE]
    simp only [Bool.false_eq_true, if_false]
    rw [← List.map_flatten, chunkRanges_flatten]

/-- C8: the recommendation output is independent of the inference batch
size: for any two positive batch sizes the full call returns identical
results (identical item order, identical scores, and the same exception
behaviour on the zero-item edge).  Batching is a performance knob only. -/
theorem batch_size_invariance {υ ι φ ψ : Type*} [DecidableEq υ] [DecidableEq ι]
    [DecidableEq φ] [DecidableEq ψ] (σ : ℚ → ℚ) (w : ModelWeights) (users : List υ)
    (events : List ι) (userFeatures : List (υ × List φ)) (eventFeatures : List (ι × List ψ))
    (interactions : List (υ × ι × ℚ)) (userId : υ) (topN : ℕ) (filterLiked : Bool)
    (b1 b2 : ℕ) (hb1 : 0 < b1) (hb2 : 0 < b2) :
    recommendForUser σ w users events userFeatures eventFeatures interactions userId topN
      filterLiked b1 =
    recommendForUser σ w users events userFeatures eventFeatures interactions userId topN
      filterLiked b2 := by
  unfold recommendForUser
  cases idMapOf users userId with
  | none => rfl
  | some uIdx =>
    dsimp only
    rw [batchedScores_eq _ _ _ _ _ _ _ hb1, batchedScores_eq _ _ _ _ _ _ _ hb2]

/-- C8 witness: batch sizes 1 and 2 produce identical recommendation
output on a concrete fitted model. -/
theorem batch_size_invariance_witness :
    (0 : ℕ) < 1 ∧ (0 : ℕ) < 2
    ∧ recommendForUser id zeroWeights [1] [7, 8] ([] : List (ℕ × List ℕ))
        ([] : List (ℕ × List ℕ)) ([] : List (ℕ × ℕ × ℚ)) 1 5 true 1
      = recommendForUser id zeroWeights [1] [7, 8] ([] : List (ℕ × List ℕ))
        ([] : List (ℕ × List ℕ)) ([] : List (ℕ × ℕ × ℚ)) 1 5 true 2 :=
  ⟨by decide, by decide,
   batch_size_invariance id zeroWeights [1] [7, 8] ([] : List (ℕ × List ℕ))
     ([] : List (ℕ × List ℕ)) [] 1 5 true 1 2 (by decide) (by decide)⟩

/-- C7 (amended): on a fitted model with at least one user and at least
one item, training with an empty positive interaction set is a no-op: the
sampled negative count is `int(0 * ratio) = 0`, both bounded draws
succeed, the combined dataset is empty, and `train_model` returns
(modelling the logged warning and return) without touching the model
parameters and without raising.  The counterexample shows the
zero-user/zero-item models, where the positive set is necessarily empty,
raise instead. -/
theorem train_empty_positives_noop (update : ModelWeights → List (ℕ × ℕ × ℚ) → ModelWeights)
    (shuffle : ℕ → List (ℕ × ℕ × ℚ) → List (ℕ × ℕ × ℚ)) (rngUser rngItem : ℕ → ℕ)
    (w : ModelWeights) (numUsers numItems epochs batchSize : ℕ) (negRate : ℚ)
    (hu : 0 < numUsers) (hi : 0 < numItems) :
    trainModel update shuffle rngUser rngItem w numUsers numItems [] epochs batchSize negRate
      = Except.ok w := by
  have hnn : numNegatives negRate (List.length ([] : List (ℕ × ℕ × ℚ))) = 0 := by
    simp [numNegatives]
  unfold trainModel
  rw [hnn]
  unfold npRandint
  rw [if_neg hu.ne', if_neg hi.ne']
  simp

/-- C7 counterexample: the claim as stated — `train` on every fitted
model with empty positives is a no-op that raises nothing — is false.  On
a fitted model with one user and zero items the positive set is
necessarily empty, yet `np.random.randint(0, len(item_id_map), size=0)`
validates its bounds before the `dataset_size == 0` guard is reached and
raises `ValueError: low >= high`, so training raises instead of
returning. -/
theorem train_empty_positives_claim_counterexample :
    trainModel (fun wAcc _ => wAcc) (fun _ d => d) id id zeroWeights 1 0
      ([] : List (ℕ × ℕ × ℚ)) 10 256 1 = Except.error "low >= high" := rfl

/-- C7 witness: on a fitted model with one user and one item the
hypotheses hold and training with empty positives returns the unchanged
model. -/
theorem train_empty_positives_noop_witness :
    (0 : ℕ) < 1 ∧ (0 : ℕ) < 1
    ∧ trainModel (fun wAcc _ => wAcc) (fun _ d => d) id id zeroWeights 1 1
        ([] : List (ℕ × ℕ × ℚ)) 10 256 1 = Except.ok zeroWeights :=
  ⟨by decide, by decide,
   train_empty_positives_noop (fun wAcc _ => wAcc) (fun _ d => d) id id zeroWeights 1 1 10 256 1
     (by decide) (by decide)⟩

/-- Two lists have equal insertion sorts exactly when they are
permutations of one another. -/
theorem insertionSort_eq_iff_perm {τ : Type*} [LinearOrder τ] (l l2 : List τ) :
    List.insertionSort (· ≤ ·) l = List.insertionSort (· ≤ ·) l2 ↔ l.Perm l2 := by
  constructor
  · intro h
    have h1 := List.perm_insertionSort (· ≤ ·) l
    have h2 := List.perm_insertionSort (· ≤ ·) l2
    rw [← h] at h2
    exact h1.symm.trans h2
  · intro h
    refine List.eq_of_perm_of_sorted ?_ (List.sorted_insertionSort _ l)
      (List.sorted_insertionSort _ l2)
    exact (List.perm_insertionSort _ l).trans (h.trans (List.perm_insertionSort _ l2).symm)

/-- C3 (amended): the data fingerprint is invariant under every
permutation of each of the five input sequences, and two fingerprints are
equal exactly when the five inputs agree as multisets.  (Equality of the
underlying sets is not enough: see the counterexample with a duplicated
element.) -/
theorem fingerprint_eq_iff_perm {α β γ δ ε : Type*} [LinearOrder α] [LinearOrder β]
    [LinearOrder γ] [LinearOrder δ] [LinearOrder ε] (us us2 : List α) (es es2 : List β)
    (ufs ufs2 : List γ) (efs efs2 : List δ) (ins ins2 : List ε) :
    canonicalFingerprint us es ufs efs ins = canonicalFingerprint us2 es2 ufs2 efs2 ins2 ↔
      (us.Perm us2 ∧ es.Perm es2 ∧ ufs.Perm ufs2 ∧ efs.Perm efs2 ∧ ins.Perm ins2) := by
  unfold canonicalFingerprint
  simp only [Prod.mk.injEq]
  rw [insertionSort_eq_iff_perm, insertionSort_eq_iff_perm, insertionSort_eq_iff_perm,
    insertionSort_eq_iff_perm, insertionSort_eq_iff_perm]

/-- C3 counterexample: the claim that the fingerprint differs only when
the underlying sets differ is false: the user sequences `[0, 0]` and `[0]`
have the same set of elements, yet their fingerprints differ (the
canonical sorted representation keeps duplicates). -/
theorem fingerprint_set_counterexample :
    ([0, 0] : List ℕ).toFinset = ([0] : List ℕ).toFinset
    ∧ canonicalFingerprint ([0, 0] : List ℕ) ([] : List ℕ) ([] : List ℕ) ([] : List ℕ)
        ([] : List ℕ)
      ≠ canonicalFingerprint ([0] : List ℕ) ([] : List ℕ) ([] : List ℕ) ([] : List ℕ)
        ([] : List ℕ) :=
  ⟨by decide, by decide⟩

/-- C4: the freshness policy of `needs_training`.  A stored record dated
before today forces retraining even with a matching fingerprint; a record
dated today with a matching fingerprint is reused; any fingerprint
mismatch forces retraining regardless of the date; a missing record
forces retraining. -/
theorem needs_training_policy {τ : Type*} [LinearOrder τ] [DecidableEq τ]
    (su se sa sb sc cu ce ca cb cc : List τ) (d today : ℤ) :
    (d < today →
      needsTraining (some (canonicalFingerprint su se sa sb sc, d))
        (canonicalFingerprint cu ce ca cb cc) today = true)
    ∧ (d = today → canonicalFingerprint su se sa sb sc = canonicalFingerprint cu ce ca cb cc →
      needsTraining (some (canonicalFingerprint su se sa sb sc, d))
        (canonicalFingerprint cu ce ca cb cc) today = false)
    ∧ (canonicalFingerprint su se sa sb sc ≠ canonicalFingerprint cu ce ca cb cc →
      needsTraining (some (canonicalFingerprint su se sa sb sc, d))
        (canonicalFingerprint cu ce ca cb cc) today = true)
    ∧ needsTraining (none : Option ((List τ × List τ × List τ × List τ × List τ) × ℤ))
        (canonicalFingerprint cu ce ca cb cc) today = true := by
  refine ⟨?_, ?_, ?_, rfl⟩
  · intro hd
    by_cases hfp : canonicalFingerprint su se sa sb sc = canonicalFingerprint cu ce ca cb cc
    · simp [needsTraining, hfp, hd]
    · simp [needsTraining, hfp]
  · intro hd hfp
    subst hd
    simp [needsTraining, hfp]
  · intro hfp
    simp [needsTraining, hfp]

/-- C4 witness: the four policy cases evaluated on concrete fingerprints
and dates (day 2 is yesterday relative to day 3). -/
theorem needs_training_policy_witness :
    needsTraining (some (canonicalFingerprint ([4] : List ℕ) ([] : List ℕ) ([] : List ℕ) ([] : List ℕ) ([] : List ℕ), (2 : ℤ)))
      (canonicalFingerprint ([4] : List ℕ) ([] : List ℕ) ([] : List ℕ) ([] : List ℕ) ([] : List ℕ)) 3 = true
    ∧ needsTraining (some (canonicalFingerprint ([4] : List ℕ) ([] : List ℕ) ([] : List ℕ) ([] : List ℕ) ([] : List ℕ), (3 : ℤ)))
      (canonicalFingerprint ([4] : List ℕ) ([] : List ℕ) ([] : List ℕ) ([] : List ℕ) ([] : List ℕ)) 3 = false
    ∧ needsTraining (some (canonicalFingerprint ([9] : List ℕ) ([] : List ℕ) ([] : List ℕ) ([] : List ℕ) ([] : List ℕ), (3 : ℤ)))
      (canonicalFingerprint ([4] : List ℕ) ([] : List ℕ) ([] : List ℕ) ([] : List ℕ) ([] : List ℕ)) 3 = true
    ∧ needsTraining (none : Option ((List ℕ × List ℕ × List ℕ × List ℕ × List ℕ) × ℤ))
      (canonicalFingerprint ([4] : List ℕ) ([] : List ℕ) ([] : List ℕ) ([] : List ℕ) ([] : List ℕ)) 3 = true :=
  ⟨(needs_training_policy ([4] : List ℕ) [] [] [] [] [4] [] [] [] [] 2 3).1 (by decide),
   (needs_training_policy ([4] : List ℕ) [] [] [] [] [4] [] [] [] [] 3 3).2.1 rfl rfl,
   (needs_training_policy ([9] : List ℕ) [] [] [] [] [4] [] [] [] [] 3 3).2.2.1 (by decide),
   (needs_training_policy ([9] : List ℕ) [] [] [] [] [4] [] [] [] [] 3 3).2.2.2⟩

/-- C5 (amended): cleanup retains exactly the records dated at or after
`now - daysToKeep`; every older record is deleted, including an owner's
single most-recent record, so an owner whose records are all older than
the window is left with zero records. -/
theorem cleanup_keeps_iff (records : List (ℕ × ℤ)) (now daysToKeep : ℤ) (r : ℕ × ℤ) :
    r ∈ cleanupOldModels records now daysToKeep ↔ r ∈ records ∧ now - daysToKeep ≤ r.2 := by
  unfold cleanupOldModels
  rw [List.mem_filter]
  simp [not_lt]

/-- C5 counterexample: owner 0 has a single (hence most-recent) record,
dated day 0; with `now = 10` and a 7-day window the cleanup deletes it,
leaving the owner with zero records — the claimed keep-the-newest
invariant does not hold. -/
theorem cleanup_deletes_sole_record :
    ((0 : ℕ), (0 : ℤ)) ∈ ([((0 : ℕ), (0 : ℤ))] : List (ℕ × ℤ))
    ∧ cleanupOldModels [((0 : ℕ), (0 : ℤ))] 10 7 = [] :=
  ⟨by decide, by decide⟩

end Beacon
